import Mathlib

/-!
Verification of the frame-extraction and archival pipeline of the
VideoConverter class in `src/script.js`.

Modelling conventions:
* JavaScript numbers are modelled as exact rationals (`ℚ`), string values as
  Lean `String`.
* The asynchronous `stopRequested` flag is modelled by an oracle
  `cancelAt : Option ℕ` giving the index of the first read of the flag that
  observes `true` (the flag is only ever set, never cleared, during a run).
* The unbounded recursive frame loop of `processInterval` is modelled with an
  explicit iteration bound (`fuel`); running out of fuel yields `none`, which
  corresponds to the source loop not having terminated within that bound.
-/

namespace VTI

/-- Image file extension derived from the MIME format string, as computed at
lines 236 and 308 of `src/script.js`:
`settings.format === 'image/png' ? 'png' : 'jpg'`. -/
def extFor (format : String) : String :=
  if format = "image/png" then "png" else "jpg"

/-- Little-endian decimal digits of the second argument; the first argument is
structural fuel (any `fuel ≥ n` gives the digits of `n`).  This models the
digit stream of JavaScript number-to-string conversion for nonnegative
integers. -/
def decDigits : ℕ → ℕ → List ℕ
  | 0, _ => []
  | _ + 1, 0 => []
  | fuel + 1, n + 1 => (n + 1) % 10 :: decDigits fuel ((n + 1) / 10)

/-- Big-endian decimal character list of a nonnegative integer, as produced by
JavaScript template interpolation of an integer-valued number (`${index}`). -/
def natDecimalChars (n : ℕ) : List Char :=
  if n = 0 then ['0'] else ((decDigits n n).map Nat.digitChar).reverse

/-- Decimal string of a nonnegative integer (JavaScript `${n}`). -/
def natDecimal (n : ℕ) : String := String.mk (natDecimalChars n)

/-- Numeric value of a decimal digit character. -/
def charVal (c : Char) : ℕ := c.toNat - 48

/-- Value of a little-endian decimal digit list. -/
def ofDecDigits : List ℕ → ℕ
  | [] => 0
  | d :: ds => d + 10 * ofDecDigits ds

/-- Value of a big-endian decimal character list. -/
def natOfChars (l : List Char) : ℕ := ofDecDigits ((l.map charVal).reverse)

/-- Models `name.replace(/\.[^/.]+$/, "")` (lines 237 and 272): drop a final
`.`-separated extension when the dot is followed by at least one character
that is neither `.` nor `/`; otherwise the name is unchanged. -/
def stripExt (name : String) : String :=
  match name.data.reverse.dropWhile (fun c => c != '.' && c != '/') with
  | '.' :: rest =>
      if name.data.reverse.takeWhile (fun c => c != '.' && c != '/') = [] then name
      else String.mk rest.reverse
  | _ => name

/-- The shared-archive entry name built at lines 236-239 of `src/script.js`:
`` `${cleanName}_${index}.${ext}` ``. -/
def singleFrameEntryName (fileName : String) (index : ℕ) (format : String) : String :=
  stripExt fileName ++ "_" ++ natDecimal index ++ "." ++ extFor format

/-- The integer number of centiseconds that JavaScript `t.toFixed(2)` renders,
for `t ≥ 0`: rounding to two decimal places, ties away from zero. -/
def cents (t : ℚ) : ℕ := (⌊t * 100 + 1 / 2⌋).toNat

/-- The two fractional digits that `toFixed(2)` prints for a fractional part
of value `f` centiseconds (`f < 100`). -/
def pad2 (f : ℕ) : List Char := [Nat.digitChar (f / 10), Nat.digitChar (f % 10)]

/-- Models `currentTime.toFixed(2).replace('.', '_')` (line 309) for
`currentTime ≥ 0`: `toFixed(2)` renders `⟨integer part⟩.⟨two digits⟩` and
`replace` swaps the unique dot for an underscore. -/
def timeStr (t : ℚ) : String :=
  String.mk (natDecimalChars (cents t / 100) ++ '_' :: pad2 (cents t % 100))

/-- The per-source archive entry name built at lines 308-310 of
`src/script.js`: `` `frame_${timeStr}.${ext}` ``. -/
def frameEntryName (t : ℚ) (format : String) : String :=
  "frame_" ++ timeStr t ++ "." ++ extFor format

/-- Recovers the queue index encoded in a shared-archive entry name
`<base>_<index>.<ext>`: the run of characters after the last underscore,
truncated before the extension dot, read as a decimal number. -/
def entryIndex (e : String) : ℕ :=
  natOfChars (((e.data.reverse.takeWhile (fun c => c != '_')).reverse).takeWhile
    (fun c => c != '.'))

/-- Recovers the centisecond value encoded in a per-source entry name
`frame_<int>_<frac2>.<ext>`: the integer part is the run between the last two
underscores, the fractional part the run after the last underscore and before
the extension dot. -/
def frameValue (e : String) : ℕ :=
  100 * natOfChars ((((e.data.reverse.dropWhile (fun c => c != '_')).drop 1).takeWhile
      (fun c => c != '_')).reverse) +
    natOfChars (((e.data.reverse.takeWhile (fun c => c != '_')).reverse).takeWhile
      (fun c => c != '.'))

/-- Models `parseFloat(this.ui.interval.value) || 1` (line 133).  `none`
stands for a non-numeric input (`parseFloat` returns `NaN`, which is falsy);
`some x` for a parsed numeric value `x` (falsy exactly when `x = 0`). -/
def effectiveInterval (parsed : Option ℚ) : ℚ :=
  match parsed with
  | none => 1
  | some x => if x = 0 then 1 else x

/-- The timestamp sequence generated by the `processFrame`/`onseeked` loop of
`processInterval` (lines 274-313): starting from `currentTime = 0`, a frame is
captured whenever `¬(currentTime > duration)` and then
`currentTime += settings.interval`.  The source loop is unbounded; `fuel`
bounds the number of iterations modelled. -/
def intervalLoopFuel (duration Δ : ℚ) : ℕ → ℚ → List ℚ
  | 0, _ => []
  | fuel + 1, t => if t ≤ duration then t :: intervalLoopFuel duration Δ fuel (t + Δ) else []

/-- The full interval-mode timestamp schedule.  The fuel `⌊duration/Δ⌋.toNat + 1`
is sufficient for every terminating configuration (`Δ > 0`, proved in
`intervalSchedule_closed_form`); for `Δ ≤ 0` the source loop does not
terminate at all (`intervalLoopFuel_nonpos_length`). -/
def intervalSchedule (duration Δ : ℚ) : List ℚ :=
  intervalLoopFuel duration Δ ((⌊duration / Δ⌋).toNat + 1) 0

/-- Extraction mode selected at line 131: `'single'` (shared master zip) or
interval (one zip per video). -/
inductive Mode
  | single
  | interval
deriving DecidableEq

/-- The settings captured at lines 131-136.  `interval` is the already
defaulted `parseFloat(...) || 1` value (see `effectiveInterval`). -/
structure Settings where
  mode : Mode
  interval : ℚ
  format : String
deriving DecidableEq

/-- A queued video file.  `meta = some d` is a video whose metadata resolves
with duration `d`; `meta = none` is a video whose stream cannot be loaded
(the `video.onerror` path fires instead of `onloadedmetadata`). -/
structure VFile where
  name : String
  meta : Option ℚ
deriving DecidableEq

/-- Per-item status badge (`status-${i}` element). -/
inductive Status
  | pending
  | processing
  | done
  | error (msg : String)
deriving DecidableEq

/-- Outcome of one item's processing promise: resolved or rejected. -/
inductive ItemOutcome
  | done
  | error (msg : String)
deriving DecidableEq

/-- The status written to the item's badge at lines 173-179. -/
def statusOfOutcome : ItemOutcome → Status
  | .done => .done
  | .error msg => .error msg

/-- Cancellation oracle: `cancelAt = some n` means the user's stop request
lands just before the `n`-th read (0-indexed) of `this.stopRequested`, so the
flag reads `false` at polls `0, …, n-1` and `true` from poll `n` on;
`cancelAt = none` means stop is never requested during the run. -/
def cancelFlag (cancelAt : Option ℕ) (poll : ℕ) : Bool :=
  match cancelAt with
  | none => false
  | some n => decide (n ≤ poll)

/-- Result of processing one queue item. -/
structure ItemResult where
  outcome : ItemOutcome
  /-- entry names appended to the shared master zip (single-frame mode) -/
  masterAdd : List String
  /-- per-source archive handed to `saveAs`, if any: zip file name and the
  entry names it contains -/
  delivered : Option (String × List String)
  /-- whether `URL.revokeObjectURL(video.src)` ran on this item's exit path -/
  revoked : Bool
  /-- number of reads of `stopRequested` performed while processing the item -/
  polls : ℕ
  /-- the timestamps at which frames were drawn to the canvas -/
  captured : List ℚ
deriving DecidableEq

/-- One `processFrame` iteration round of `processInterval` (lines 280-314):
poll `stopRequested`; if set, revoke and resolve with nothing delivered;
otherwise if `currentTime > duration`, generate and save the local zip, revoke
and resolve; otherwise capture a frame, add the entry, advance `currentTime`
and recurse. -/
structure FrameLoopOut where
  entries : List String
  captured : List ℚ
  /-- `true` when the loop exited through the `saveAs` (exhaustion) branch -/
  delivered : Bool
  polls : ℕ
deriving DecidableEq

def frameLoop (duration Δ : ℚ) (format : String) (cancelAt : Option ℕ) :
    ℕ → ℚ → ℕ → Option FrameLoopOut
  | 0, _, _ => none
  | fuel + 1, t, p =>
    if cancelFlag cancelAt p then
      some { entries := [], captured := [], delivered := false, polls := 1 }
    else if t > duration then
      some { entries := [], captured := [], delivered := true, polls := 1 }
    else
      match frameLoop duration Δ format cancelAt fuel (t + Δ) (p + 1) with
      | none => none
      | some r =>
          some { entries := frameEntryName t format :: r.entries,
                 captured := t :: r.captured,
                 delivered := r.delivered,
                 polls := r.polls + 1 }

/-- `processInterval` (lines 260-322) for one file.  A file whose metadata
never resolves fires `video.onerror`, which rejects with
"Video playback error" without revoking the object URL (line 316).  Otherwise
the frame loop runs; on both of its exits the object URL is revoked, and the
local zip is saved only on the exhaustion exit. -/
def processIntervalItem (file : VFile) (s : Settings) (cancelAt : Option ℕ)
    (pollStart fuel : ℕ) : Option ItemResult :=
  match file.meta with
  | none => some { outcome := .error "Video playback error", masterAdd := [],
                   delivered := none, revoked := false, polls := 0, captured := [] }
  | some d =>
    match frameLoop d s.interval s.format cancelAt fuel 0 pollStart with
    | none => none
    | some r =>
        some { outcome := .done, masterAdd := [],
               delivered := if r.delivered then some (file.name ++ "_frames.zip", r.entries)
                            else none,
               revoked := true, polls := r.polls, captured := r.captured }

/-- `processSingleFrame` (lines 209-255) for one file.  A file whose metadata
never resolves rejects with "Could not load video data", revoking the URL
(lines 250-253).  Otherwise the seek time is `settings.interval`, replaced by
`duration / 2` when it exceeds the duration (lines 224-225); one frame is
drawn and one entry is added to the shared zip (lines 230-244). -/
def processSingleItem (file : VFile) (s : Settings) (index : ℕ) : ItemResult :=
  match file.meta with
  | none => { outcome := .error "Could not load video data", masterAdd := [],
              delivered := none, revoked := true, polls := 0, captured := [] }
  | some d =>
    let seekTime := if s.interval > d then d / 2 else s.interval
    { outcome := .done,
      masterAdd := [singleFrameEntryName file.name index s.format],
      delivered := none, revoked := true, polls := 0, captured := [seekTime] }

/-- Dispatch at lines 166-171. -/
def processItem (file : VFile) (s : Settings) (index : ℕ) (cancelAt : Option ℕ)
    (pollStart fuel : ℕ) : Option ItemResult :=
  match s.mode with
  | .single => some (processSingleItem file s index)
  | .interval => processIntervalItem file s cancelAt pollStart fuel

/-- Observable state of one batch run. -/
structure RunResult where
  statuses : List Status
  /-- the entry names accumulated in the shared master zip -/
  masterEntries : List String
  /-- the master zip handed to `saveAs` after the loop, if any -/
  sharedDelivered : Option (List String)
  /-- the per-source zips handed to `saveAs` during the loop -/
  perSourceDelivered : List (String × List String)
  /-- per processed item: whether its object URL was revoked -/
  revokes : List Bool
  /-- total number of reads of `stopRequested` -/
  polls : ℕ
  /-- number of items whose processing was started -/
  started : ℕ
deriving DecidableEq

/-- The main loop of `startProcessing` (lines 148-181): for each item in
order, first read `stopRequested` and break if set (leaving the remaining
badges untouched); otherwise process the item, record its final badge, append
its shared-zip entries, and continue. -/
def runLoop (s : Settings) (cancelAt : Option ℕ) (fuel : ℕ) :
    List VFile → ℕ → RunResult → Option RunResult
  | [], _, acc => some acc
  | file :: rest, i, acc =>
    if cancelFlag cancelAt acc.polls then
      some { acc with polls := acc.polls + 1 }
    else
      match processItem file s i cancelAt (acc.polls + 1) fuel with
      | none => none
      | some r =>
          runLoop s cancelAt fuel rest (i + 1)
            { statuses := acc.statuses.set i (statusOfOutcome r.outcome),
              masterEntries := acc.masterEntries ++ r.masterAdd,
              sharedDelivered := acc.sharedDelivered,
              perSourceDelivered := acc.perSourceDelivered ++ r.delivered.toList,
              revokes := acc.revokes ++ [r.revoked],
              polls := acc.polls + 1 + r.polls,
              started := acc.started + 1 }

/-- The session state at the start of a run: every badge `Pending`
(`renderQueue`), both archive sinks untouched, no polls, no item started. -/
def initRun (files : List VFile) : RunResult :=
  { statuses := List.replicate files.length .pending, masterEntries := [],
    sharedDelivered := none, perSourceDelivered := [], revokes := [],
    polls := 0, started := 0 }

/-- `startProcessing` (lines 127-204): all badges start `Pending`
(`renderQueue`), the main loop runs, and afterwards — in single-frame mode
only — `mode === 'single' && !this.stopRequested && this.files.length > 0`
decides whether the master zip is generated and handed to `saveAs`
(lines 183-197); the read of `stopRequested` there is one more poll. -/
def startProcessing (files : List VFile) (s : Settings) (cancelAt : Option ℕ)
    (fuel : ℕ) : Option RunResult :=
  match runLoop s cancelAt fuel files 0 (initRun files) with
  | none => none
  | some r =>
    match s.mode with
    | .interval => some r
    | .single =>
      if cancelFlag cancelAt r.polls then
        some { r with polls := r.polls + 1 }
      else if files.length > 0 then
        some { r with polls := r.polls + 1, sharedDelivered := some r.masterEntries }
      else
        some { r with polls := r.polls + 1 }

/-- The controller flags touched by the entry of `startProcessing`. -/
structure ControllerState where
  isProcessing : Bool
  stopRequested : Bool
deriving DecidableEq

/-- The entry of `startProcessing` (lines 127-129): it unconditionally resets
`stopRequested` and switches to processing via `toggleUI(true)`; no
`isProcessing` guard is present (unlike `handleFiles`, line 72, and
`clearQueue`, line 102). -/
def startProcessingEntry : ControllerState → ControllerState :=
  fun _ => { isProcessing := true, stopRequested := false }

/-- The final badge a queue item receives when the run is never cancelled:
load failures are marked with the mode's error message, everything else
reaches Done (lines 165-180). -/
def finalStatus (s : Settings) (file : VFile) : Status :=
  match file.meta with
  | none => .error (match s.mode with
      | .single => "Could not load video data"
      | .interval => "Video playback error")
  | some _ => .done

/-! ### Concrete scenario instances -/

/-- Three queued files sharing the base name "clip" (spec §8 scenario). -/
def clipFiles : List VFile :=
  [⟨"clip", some 10⟩, ⟨"clip", some 10⟩, ⟨"clip", some 10⟩]

/-- Single-frame mode, 1-second snapshot, JPEG. -/
def clipSettings : Settings :=
  { mode := Mode.single, interval := 1, format := "image/jpeg" }

/-- The observable outcome of running the "clip" batch to completion. -/
def clipRun : RunResult :=
  { statuses := [Status.done, Status.done, Status.done],
    masterEntries := ["clip_0.jpg", "clip_1.jpg", "clip_2.jpg"],
    sharedDelivered := some ["clip_0.jpg", "clip_1.jpg", "clip_2.jpg"],
    perSourceDelivered := [], revokes := [true, true, true], polls := 4, started := 3 }

/-- A two-file batch stopped after the first item's loop-head poll. -/
def cancelScenarioFiles : List VFile := [⟨"a", some 1⟩, ⟨"b", some 1⟩]

def cancelScenarioSettings : Settings :=
  { mode := Mode.single, interval := 1, format := "image/png" }

/-- Outcome of the cancelled batch: item 0 Done, item 1 still Pending, no
master zip delivered. -/
def cancelScenarioRun : RunResult :=
  { statuses := [Status.done, Status.pending], masterEntries := ["a_0.png"],
    sharedDelivered := none, perSourceDelivered := [], revokes := [true],
    polls := 3, started := 1 }

/-- A batch whose first video cannot be loaded, followed by a loadable one. -/
def errorScenarioFiles : List VFile := [⟨"bad", none⟩, ⟨"good.mp4", some 1⟩]

/-- Outcome: the failing file is marked Error with the captured message and
the following file still reaches Done. -/
def errorScenarioRun : RunResult :=
  { statuses := [Status.error "Could not load video data", Status.done],
    masterEntries := ["good_1.png"], sharedDelivered := some ["good_1.png"],
    perSourceDelivered := [], revokes := [true, true], polls := 3, started := 2 }

/-! ### Decimal rendering lemmas -/

theorem decDigits_lt_ten : ∀ fuel n, ∀ d ∈ decDigits fuel n, d < 10 := by
  intro fuel
  induction fuel with
  | zero => intro n d hd; simp [decDigits] at hd
  | succ fuel ih =>
    intro n d hd
    match n with
    | 0 => simp [decDigits] at hd
    | n + 1 =>
      simp only [decDigits, List.mem_cons] at hd
      rcases hd with h | h
      · omega
      · exact ih _ _ h

theorem ofDecDigits_decDigits : ∀ fuel n, n ≤ fuel → ofDecDigits (decDigits fuel n) = n := by
  intro fuel
  induction fuel with
  | zero => intro n hn; interval_cases n; rfl
  | succ fuel ih =>
    intro n hn
    match n with
    | 0 => rfl
    | n + 1 =>
      have hdiv : (n + 1) / 10 ≤ fuel := by omega
      simp only [decDigits, ofDecDigits, ih _ hdiv]
      omega

theorem charVal_digitChar {d : ℕ} (h : d < 10) : charVal (Nat.digitChar d) = d := by
  interval_cases d <;> decide

theorem digitChar_ne_underscore {d : ℕ} (h : d < 10) :
    (Nat.digitChar d != '_') = true := by
  interval_cases d <;> decide

theorem digitChar_ne_dot {d : ℕ} (h : d < 10) : (Nat.digitChar d != '.') = true := by
  interval_cases d <;> decide

theorem natDecimalChars_digits (n : ℕ) :
    ∀ c ∈ natDecimalChars n, ∃ d, d < 10 ∧ c = Nat.digitChar d := by
  intro c hc
  unfold natDecimalChars at hc
  by_cases hn : n = 0
  · simp [hn] at hc
    exact ⟨0, by omega, by rw [hc]; rfl⟩
  · simp only [hn, if_false, List.mem_reverse, List.mem_map] at hc
    obtain ⟨d, hd, rfl⟩ := hc
    exact ⟨d, decDigits_lt_ten _ _ _ hd, rfl⟩

theorem natDecimalChars_ne_underscore (n : ℕ) :
    ∀ c ∈ natDecimalChars n, (c != '_') = true := by
  intro c hc
  obtain ⟨d, hd, rfl⟩ := natDecimalChars_digits n c hc
  exact digitChar_ne_underscore hd

theorem natDecimalChars_ne_dot (n : ℕ) :
    ∀ c ∈ natDecimalChars n, (c != '.') = true := by
  intro c hc
  obtain ⟨d, hd, rfl⟩ := natDecimalChars_digits n c hc
  exact digitChar_ne_dot hd

theorem natOfChars_natDecimalChars (n : ℕ) : natOfChars (natDecimalChars n) = n := by
  unfold natOfChars natDecimalChars
  by_cases hn : n = 0
  · subst hn; decide
  · simp only [hn, if_false, List.map_reverse, List.reverse_reverse, List.map_map]
    have hmap : (decDigits n n).map (charVal ∘ Nat.digitChar) = decDigits n n := by
      rw [List.map_congr_left fun d hd => ?_, List.map_id]
      exact charVal_digitChar (decDigits_lt_ten _ _ _ hd)
    rw [hmap, ofDecDigits_decDigits n n le_rfl]

theorem pad2_ne_underscore {f : ℕ} (hf : f < 100) : ∀ c ∈ pad2 f, (c != '_') = true := by
  intro c hc
  simp only [pad2, List.mem_cons, List.not_mem_nil, or_false] at hc
  rcases hc with rfl | rfl
  · exact digitChar_ne_underscore (by omega)
  · exact digitChar_ne_underscore (by omega)

theorem pad2_ne_dot {f : ℕ} (hf : f < 100) : ∀ c ∈ pad2 f, (c != '.') = true := by
  intro c hc
  simp only [pad2, List.mem_cons, List.not_mem_nil, or_false] at hc
  rcases hc with rfl | rfl
  · exact digitChar_ne_dot (by omega)
  · exact digitChar_ne_dot (by omega)

theorem natOfChars_pad2 {f : ℕ} (hf : f < 100) : natOfChars (pad2 f) = f := by
  have h1 : f / 10 < 10 := by omega
  have h2 : f % 10 < 10 := by omega
  simp only [natOfChars, pad2, List.map_cons, List.map_nil, List.reverse_cons,
    List.reverse_nil, List.nil_append, List.cons_append, ofDecDigits,
    charVal_digitChar h1, charVal_digitChar h2]
  omega

theorem extFor_ne_underscore (format : String) :
    ∀ c ∈ (extFor format).data, (c != '_') = true := by
  unfold extFor
  by_cases h : format = "image/png" <;> simp [h]

/-! ### takeWhile / dropWhile decomposition lemmas -/

theorem takeWhile_append_cons (p : Char → Bool) :
    ∀ (l : List Char) (c : Char) (r : List Char), p c = false →
      (∀ x ∈ l, p x = true) → ((l ++ c :: r).takeWhile p) = l := by
  intro l
  induction l with
  | nil => intro c r hc _; simp [List.takeWhile, hc]
  | cons a l ih =>
    intro c r hc hl
    have ha : p a = true := hl a (List.mem_cons_self a l)
    simp only [List.cons_append, List.takeWhile_cons, ha, if_true]
    rw [ih c r hc fun x hx => hl x (List.mem_cons_of_mem a hx)]

theorem dropWhile_append_cons (p : Char → Bool) :
    ∀ (l : List Char) (c : Char) (r : List Char), p c = false →
      (∀ x ∈ l, p x = true) → ((l ++ c :: r).dropWhile p) = c :: r := by
  intro l
  induction l with
  | nil => intro c r hc _; simp [List.dropWhile, hc]
  | cons a l ih =>
    intro c r hc hl
    have ha : p a = true := hl a (List.mem_cons_self a l)
    simp only [List.cons_append, List.dropWhile_cons, ha, if_true]
    exact ih c r hc fun x hx => hl x (List.mem_cons_of_mem a hx)

/-! ### Entry-name parsing lemmas -/

theorem singleFrameEntryName_data (fileName : String) (i : ℕ) (format : String) :
    (singleFrameEntryName fileName i format).data =
      (stripExt fileName).data ++ '_' :: (natDecimalChars i ++ '.' :: (extFor format).data) := by
  have h1 : ("_" : String).data = ['_'] := rfl
  have h2 : ("." : String).data = ['.'] := rfl
  simp [singleFrameEntryName, String.data_append, natDecimal, h1, h2]

/-- The queue index is recoverable from a shared-archive entry name, whatever
the base file name is. -/
theorem entryIndex_singleFrameEntryName (fileName : String) (i : ℕ) (format : String) :
    entryIndex (singleFrameEntryName fileName i format) = i := by
  unfold entryIndex
  rw [singleFrameEntryName_data]
  have hrev : ((stripExt fileName).data ++
      '_' :: (natDecimalChars i ++ '.' :: (extFor format).data)).reverse =
      ((extFor format).data.reverse ++ '.' :: (natDecimalChars i).reverse) ++
        '_' :: (stripExt fileName).data.reverse := by
    simp [List.reverse_append, List.reverse_cons]
  rw [hrev, takeWhile_append_cons _ _ _ _ (by decide) ?side1]
  case side1 =>
    intro x hx
    rcases List.mem_append.mp hx with h | h
    · exact extFor_ne_underscore format x (List.mem_reverse.mp h)
    · rcases List.mem_cons.mp h with rfl | h
      · decide
      · exact natDecimalChars_ne_underscore i x (List.mem_reverse.mp h)
  have hrev2 : (((extFor format).data.reverse ++ '.' :: (natDecimalChars i).reverse)).reverse =
      natDecimalChars i ++ '.' :: (extFor format).data := by
    simp [List.reverse_append, List.reverse_cons]
  rw [hrev2, takeWhile_append_cons _ _ _ _ (by decide) (natDecimalChars_ne_dot i)]
  exact natOfChars_natDecimalChars i

theorem frameEntryName_data (t : ℚ) (format : String) :
    (frameEntryName t format).data =
      ('f' :: 'r' :: 'a' :: 'm' :: 'e' :: '_' :: natDecimalChars (cents t / 100)) ++
        '_' :: (pad2 (cents t % 100) ++ '.' :: (extFor format).data) := by
  have h1 : ("frame_" : String).data = ['f', 'r', 'a', 'm', 'e', '_'] := rfl
  have h2 : ("." : String).data = ['.'] := rfl
  simp [frameEntryName, String.data_append, timeStr, h1, h2]

/-- The rounded centisecond value is recoverable from a per-source entry
name. -/
theorem frameValue_frameEntryName (t : ℚ) (format : String) :
    frameValue (frameEntryName t format) = cents t := by
  have hfrac : cents t % 100 < 100 := Nat.mod_lt _ (by omega)
  unfold frameValue
  rw [frameEntryName_data]
  have hrev : ((('f' :: 'r' :: 'a' :: 'm' :: 'e' :: '_' :: natDecimalChars (cents t / 100)) ++
      '_' :: (pad2 (cents t % 100) ++ '.' :: (extFor format).data))).reverse =
      ((extFor format).data.reverse ++ '.' :: (pad2 (cents t % 100)).reverse) ++
        '_' :: ((natDecimalChars (cents t / 100)).reverse ++
          '_' :: ['e', 'm', 'a', 'r', 'f']) := by
    simp [List.reverse_append, List.reverse_cons, List.append_assoc]
  rw [hrev]
  have hside : ∀ x ∈ (extFor format).data.reverse ++ '.' :: (pad2 (cents t % 100)).reverse,
      (x != '_') = true := by
    intro x hx
    rcases List.mem_append.mp hx with h | h
    · exact extFor_ne_underscore format x (List.mem_reverse.mp h)
    · rcases List.mem_cons.mp h with rfl | h
      · decide
      · exact pad2_ne_underscore hfrac x (List.mem_reverse.mp h)
  rw [takeWhile_append_cons _ _ _ _ (by decide) hside,
    dropWhile_append_cons _ _ _ _ (by decide) hside]
  simp only [List.drop_succ_cons, List.drop_zero]
  rw [takeWhile_append_cons _ _ _ _ (by decide)
    (fun x hx => natDecimalChars_ne_underscore _ x (List.mem_reverse.mp hx))]
  have hrev2 : (((extFor format).data.reverse ++ '.' :: (pad2 (cents t % 100)).reverse)).reverse =
      pad2 (cents t % 100) ++ '.' :: (extFor format).data := by
    simp [List.reverse_append, List.reverse_cons]
  rw [hrev2, takeWhile_append_cons _ _ _ _ (by decide) (pad2_ne_dot hfrac),
    List.reverse_reverse, natOfChars_natDecimalChars, natOfChars_pad2 hfrac]
  omega

/-! ### The interval-mode timestamp schedule -/

theorem intervalLoopFuel_of_gt {duration Δ t : ℚ} (h : duration < t) :
    ∀ fuel, intervalLoopFuel duration Δ fuel t = [] := by
  intro fuel
  cases fuel with
  | zero => rfl
  | succ fuel => simp [intervalLoopFuel, not_le.mpr h]

theorem intervalLoopFuel_closed (duration Δ : ℚ) (hΔ : 0 < Δ) :
    ∀ (n : ℕ), ∀ (t : ℚ) (fuel : ℕ), t ≤ duration →
      ⌊(duration - t) / Δ⌋ = (n : ℤ) → n < fuel →
      intervalLoopFuel duration Δ fuel t =
        (List.range (n + 1)).map (fun k : ℕ => t + (k : ℚ) * Δ) := by
  intro n
  induction n with
  | zero =>
    intro t fuel ht hfl hfuel
    obtain ⟨fuel, rfl⟩ := Nat.exists_eq_succ_of_ne_zero (by omega : fuel ≠ 0)
    have hlt : (duration - t) / Δ < 1 := by
      have h0 : ⌊(duration - t) / Δ⌋ = 0 := by exact_mod_cast hfl
      exact (Int.floor_eq_zero_iff.mp h0).2
    have hnext : duration < t + Δ := by
      have := (div_lt_one hΔ).mp hlt
      linarith
    have hr1 : List.range 1 = [0] := rfl
    simp [intervalLoopFuel, ht, intervalLoopFuel_of_gt hnext, hr1]
  | succ n ih =>
    intro t fuel ht hfl hfuel
    obtain ⟨fuel, rfl⟩ := Nat.exists_eq_succ_of_ne_zero (by omega : fuel ≠ 0)
    have hone : (1 : ℚ) ≤ (duration - t) / Δ := by
      have h1 : (1 : ℤ) ≤ ⌊(duration - t) / Δ⌋ := by
        rw [hfl]
        exact_mod_cast Nat.succ_le_succ n.zero_le
      exact_mod_cast Int.le_floor.mp h1
    have hnext : t + Δ ≤ duration := by
      have := (one_le_div hΔ).mp hone
      linarith
    have hstep : ⌊(duration - (t + Δ)) / Δ⌋ = (n : ℤ) := by
      have harith : (duration - (t + Δ)) / Δ = (duration - t) / Δ - 1 := by
        field_simp
        ring
      rw [harith, Int.floor_sub_one, hfl]
      push_cast
      ring
    have hrec := ih (t + Δ) fuel hnext hstep (by omega)
    have hcons : (List.range (n + 1 + 1)).map (fun k : ℕ => t + (k : ℚ) * Δ) =
        t :: (List.range (n + 1)).map (fun k : ℕ => (t + Δ) + (k : ℚ) * Δ) := by
      rw [List.range_succ_eq_map]
      simp only [List.map_cons, List.map_map, Nat.cast_zero, zero_mul, add_zero]
      refine congrArg (t :: ·) (List.map_congr_left fun k _ => ?_)
      simp only [Function.comp_apply]
      push_cast
      ring
    simp only [intervalLoopFuel, if_pos ht, hrec, hcons]

theorem intervalSchedule_closed_form (duration Δ : ℚ) (hd : 0 ≤ duration) (hΔ : 0 < Δ) :
    intervalSchedule duration Δ =
      (List.range ((⌊duration / Δ⌋).toNat + 1)).map (fun k : ℕ => (k : ℚ) * Δ) := by
  have hnn : (0 : ℤ) ≤ ⌊duration / Δ⌋ := Int.floor_nonneg.mpr (div_nonneg hd hΔ.le)
  have hfl : ⌊(duration - 0) / Δ⌋ = ((⌊duration / Δ⌋).toNat : ℤ) := by
    rw [sub_zero, Int.toNat_of_nonneg hnn]
  have h := intervalLoopFuel_closed duration Δ hΔ (⌊duration / Δ⌋).toNat 0 _ hd hfl
    (Nat.lt_succ_self _)
  rw [intervalSchedule, h]
  simp

/-- With a nonpositive step the source frame loop never reaches its exit
condition: it emits a timestamp at every iteration, for any iteration
bound. -/
theorem intervalLoopFuel_nonpos_length (duration Δ : ℚ) (hΔ : Δ ≤ 0) :
    ∀ fuel, ∀ t : ℚ, t ≤ duration → (intervalLoopFuel duration Δ fuel t).length = fuel := by
  intro fuel
  induction fuel with
  | zero => intro t ht; rfl
  | succ fuel ih =>
    intro t ht
    simp [intervalLoopFuel, ht, ih (t + Δ) (by linarith)]

/-- C1: for every duration `D ≥ 0` and interval `Δ > 0`, the interval-mode
timestamp sequence has exactly `⌊D/Δ⌋ + 1` elements, every element is `≤ D`,
and consecutive elements increase by exactly `Δ` starting from `0`; for
durations `10`, `5`, `0.5` with `Δ = 2` the lengths are `6`, `3`, `1`. -/
theorem intervalSchedule_correct :
    (∀ duration Δ : ℚ, 0 ≤ duration → 0 < Δ →
      (((intervalSchedule duration Δ).length : ℤ) = ⌊duration / Δ⌋ + 1 ∧
        (∀ t ∈ intervalSchedule duration Δ, t ≤ duration) ∧
        (intervalSchedule duration Δ).head? = some 0 ∧
        ∀ i : ℕ, i + 1 < (intervalSchedule duration Δ).length →
          (intervalSchedule duration Δ)[i + 1]? =
            ((intervalSchedule duration Δ)[i]?).map (· + Δ))) ∧
    (intervalSchedule 10 2).length = 6 ∧ (intervalSchedule 5 2).length = 3 ∧
      (intervalSchedule (1 / 2) 2).length = 1 := by
  have main : ∀ duration Δ : ℚ, 0 ≤ duration → 0 < Δ →
      (((intervalSchedule duration Δ).length : ℤ) = ⌊duration / Δ⌋ + 1 ∧
        (∀ t ∈ intervalSchedule duration Δ, t ≤ duration) ∧
        (intervalSchedule duration Δ).head? = some 0 ∧
        ∀ i : ℕ, i + 1 < (intervalSchedule duration Δ).length →
          (intervalSchedule duration Δ)[i + 1]? =
            ((intervalSchedule duration Δ)[i]?).map (· + Δ)) := by
    intro d Δ hd hΔ
    have hnn : (0 : ℤ) ≤ ⌊d / Δ⌋ := Int.floor_nonneg.mpr (div_nonneg hd hΔ.le)
    have hcf := intervalSchedule_closed_form d Δ hd hΔ
    refine ⟨?_, ?_, ?_, ?_⟩
    · rw [hcf]
      simp only [List.length_map, List.length_range]
      push_cast [Int.toNat_of_nonneg hnn]
      ring
    · intro t ht
      rw [hcf] at ht
      obtain ⟨k, hk, rfl⟩ := List.mem_map.mp ht
      have hk' : k < (⌊d / Δ⌋).toNat + 1 := List.mem_range.mp hk
      have hkz : (k : ℤ) ≤ ⌊d / Δ⌋ := by omega
      have hkq : (k : ℚ) ≤ d / Δ := by exact_mod_cast Int.le_floor.mp hkz
      calc (k : ℚ) * Δ ≤ (d / Δ) * Δ := mul_le_mul_of_nonneg_right hkq hΔ.le
        _ = d := div_mul_cancel₀ d hΔ.ne'
    · rw [hcf, List.range_succ_eq_map]
      simp
    · intro i h
      rw [hcf] at h ⊢
      simp only [List.length_map, List.length_range] at h
      simp only [List.getElem?_map, List.getElem?_range, h, Nat.lt_of_succ_lt h, if_pos]
      simp only [Option.map_some', Option.some.injEq]
      push_cast
      ring
  refine ⟨main, ?_, ?_, ?_⟩
  · have h := (main 10 2 (by norm_num) (by norm_num)).1
    have hf : ⌊(10 : ℚ) / 2⌋ = 5 := by norm_num
    rw [hf] at h
    exact_mod_cast h
  · have h := (main 5 2 (by norm_num) (by norm_num)).1
    have hf : ⌊(5 : ℚ) / 2⌋ = 2 := by norm_num
    rw [hf] at h
    exact_mod_cast h
  · have h := (main (1 / 2) 2 (by norm_num) (by norm_num)).1
    have hf : ⌊(1 : ℚ) / 2 / 2⌋ = 0 := by norm_num
    rw [hf] at h
    exact_mod_cast h

/-- Witness for C1 at duration 10, interval 2. -/
theorem intervalSchedule_correct_witness :
    ((0 : ℚ) ≤ 10) ∧ ((0 : ℚ) < 2) ∧ (intervalSchedule 10 2).length = 6 := by
  refine ⟨by norm_num, by norm_num, ?_⟩
  have h := (intervalSchedule_correct.1 10 2 (by norm_num) (by norm_num)).1
  have hf : ⌊(10 : ℚ) / 2⌋ = 5 := by norm_num
  rw [hf] at h
  exact_mod_cast h

/-- C2 counterexample: a negative parsed interval is not replaced by the
`1.0` fallback — `parseFloat(v) || 1` only catches `0` and `NaN`. -/
theorem effectiveInterval_neg_not_one :
    effectiveInterval (some (-2)) = -2 ∧ effectiveInterval (some (-2)) ≠ 1 ∧
      (intervalLoopFuel 1 (-2) 7 0).length = 7 := by
  refine ⟨?_, ?_, ?_⟩
  · norm_num [effectiveInterval]
  · norm_num [effectiveInterval]
  · exact intervalLoopFuel_nonpos_length 1 (-2) (by norm_num) 7 0 (by norm_num)

/-- C2 amended: the `1.0` fallback applies exactly when `parseFloat` yields
`NaN` (non-numeric input) or `0`; a negative parsed value is used unchanged
as the step, and then the interval-mode frame loop never terminates for any
nonnegative duration. -/
theorem effectiveInterval_fallback_amended :
    effectiveInterval none = 1 ∧ effectiveInterval (some 0) = 1 ∧
    (∀ x : ℚ, x ≠ 0 → effectiveInterval (some x) = x) ∧
    (∀ duration Δ : ℚ, Δ < 0 → 0 ≤ duration → ∀ fuel,
      (intervalLoopFuel duration Δ fuel 0).length = fuel) := by
  refine ⟨rfl, by norm_num [effectiveInterval], ?_, ?_⟩
  · intro x hx
    simp [effectiveInterval, hx]
  · intro duration Δ hΔ hd fuel
    exact intervalLoopFuel_nonpos_length duration Δ hΔ.le fuel 0 hd

/-- Witness for the amended C2 at `Δ = -2`, duration 1, bound 7. -/
theorem effectiveInterval_fallback_amended_witness :
    ((-2 : ℚ) ≠ 0) ∧ ((-2 : ℚ) < 0) ∧ ((0 : ℚ) ≤ 1) ∧
      effectiveInterval (some (-2)) = -2 ∧ (intervalLoopFuel 1 (-2) 7 0).length = 7 :=
  ⟨by norm_num, by norm_num, by norm_num,
    effectiveInterval_fallback_amended.2.2.1 (-2) (by norm_num),
    effectiveInterval_fallback_amended.2.2.2 1 (-2) (by norm_num) (by norm_num) 7⟩

/-- C3: in single-frame mode exactly one frame is captured per loadable
video, at `duration / 2` when `settings.interval > duration` and at
`settings.interval` otherwise (including `interval = 0`). -/
theorem singleFrame_capture_correct :
    ∀ (name : String) (d : ℚ) (s : Settings) (i : ℕ),
      ((processSingleItem ⟨name, some d⟩ s i).captured.length = 1) ∧
      (s.interval > d → (processSingleItem ⟨name, some d⟩ s i).captured = [d / 2]) ∧
      (s.interval ≤ d → (processSingleItem ⟨name, some d⟩ s i).captured = [s.interval]) := by
  intro name d s i
  refine ⟨rfl, ?_, ?_⟩
  · intro h
    simp [processSingleItem, h]
  · intro h
    simp [processSingleItem, not_lt.mpr h]

/-- Witness for C3: a 4-second video with a requested 7-second snapshot gets
the midpoint frame at 2s. -/
theorem singleFrame_capture_correct_witness :
    (({ mode := Mode.single, interval := 7, format := "image/png" } : Settings).interval
        > (4 : ℚ)) ∧
      (processSingleItem ⟨"v.mp4", some 4⟩
        { mode := Mode.single, interval := 7, format := "image/png" } 0).captured = [2] := by
  refine ⟨by norm_num, ?_⟩
  have h := (singleFrame_capture_correct "v.mp4" 4
    { mode := Mode.single, interval := 7, format := "image/png" } 0).2.1 (by norm_num)
  rw [h]
  norm_num

/-! ### Frame-name uniqueness (interval mode) -/

theorem cents_strict_mono {a b : ℚ} (ha : 0 ≤ a) (h : a + 1 / 100 ≤ b) :
    cents a < cents b := by
  unfold cents
  have h1 : (0 : ℚ) ≤ a * 100 + 1 / 2 := by linarith
  have hfa : (0 : ℤ) ≤ ⌊a * 100 + 1 / 2⌋ := Int.floor_nonneg.mpr h1
  have h2 : a * 100 + 1 / 2 + 1 ≤ b * 100 + 1 / 2 := by linarith
  have h3 := Int.floor_le_floor h2
  rw [Int.floor_add_one] at h3
  omega

/-- C5 amended: the per-source entry names of one interval-mode run are
pairwise distinct whenever `Δ ≥ 0.01`, i.e. whenever successive timestamps
still differ in their two-decimal rendering. -/
theorem frameNames_unique_centisecond :
    ∀ (duration Δ : ℚ) (format : String), 0 ≤ duration → 1 / 100 ≤ Δ →
      ((intervalSchedule duration Δ).map
        (fun t => frameEntryName t format)).Pairwise (· ≠ ·) := by
  intro d Δ fmt hd hΔ
  have hΔ0 : 0 < Δ := lt_of_lt_of_le (by norm_num) hΔ
  rw [intervalSchedule_closed_form d Δ hd hΔ0, List.map_map]
  refine List.Pairwise.map _ (fun a b hab => ?_) (List.pairwise_lt_range _)
  simp only [Function.comp_apply]
  intro heq
  have hv := congrArg frameValue heq
  rw [frameValue_frameEntryName, frameValue_frameEntryName] at hv
  have ha : (0 : ℚ) ≤ (a : ℚ) * Δ := by positivity
  have hstep : (a : ℚ) * Δ + 1 / 100 ≤ (b : ℚ) * Δ := by
    have hb : (a : ℚ) + 1 ≤ (b : ℚ) := by exact_mod_cast hab
    nlinarith
  have := cents_strict_mono ha hstep
  omega

/-- Witness for the amended C5 at duration 1, `Δ = 1`. -/
theorem frameNames_unique_centisecond_witness :
    ((0 : ℚ) ≤ 1) ∧ ((1 : ℚ) / 100 ≤ 1) ∧
      ((intervalSchedule 1 1).map
        (fun t => frameEntryName t "image/png")).Pairwise (· ≠ ·) :=
  ⟨by norm_num, by norm_num,
    frameNames_unique_centisecond 1 1 "image/png" (by norm_num) (by norm_num)⟩

/-- C5 counterexample: with `Δ = 1/1000 > 0` the timestamps 0 and 1/1000 of a
1/1000-second video both render as `frame_0_00`, so the two entry names of
that run coincide and the pairwise-distinctness claim fails. -/
theorem frameNames_collision_small_interval :
    ((0 : ℚ) < 1 / 1000) ∧
      (intervalSchedule (1 / 1000) (1 / 1000)).map (fun t => frameEntryName t "image/png") =
        ["frame_0_00.png", "frame_0_00.png"] ∧
      ¬ ((intervalSchedule (1 / 1000) (1 / 1000)).map
          (fun t => frameEntryName t "image/png")).Pairwise (· ≠ ·) := by
  have hc0 : cents 0 = 0 := by
    unfold cents
    norm_num
  have hc1 : cents (1 / 1000) = 0 := by
    unfold cents
    rw [show (1 : ℚ) / 1000 * 100 + 1 / 2 = 3 / 5 by norm_num,
      show ⌊(3 : ℚ) / 5⌋ = 0 by norm_num]
    rfl
  have hname0 : frameEntryName 0 "image/png" = "frame_0_00.png" := by
    unfold frameEntryName timeStr
    rw [hc0]
    decide
  have hname1 : frameEntryName (1 / 1000) "image/png" = "frame_0_00.png" := by
    unfold frameEntryName timeStr
    rw [hc1]
    decide
  have hfuel : (⌊(1 : ℚ) / 1000 / (1 / 1000)⌋).toNat + 1 = 2 := by
    rw [show ⌊(1 : ℚ) / 1000 / (1 / 1000)⌋ = 1 from by norm_num]
    decide
  have hsched : intervalSchedule (1 / 1000) (1 / 1000) = [0, 1 / 1000] := by
    unfold intervalSchedule
    rw [hfuel]
    norm_num [intervalLoopFuel]
  have hmap : (intervalSchedule (1 / 1000) (1 / 1000)).map
      (fun t => frameEntryName t "image/png") = ["frame_0_00.png", "frame_0_00.png"] := by
    rw [hsched]
    simp only [List.map_cons, List.map_nil, hname0, hname1]
  refine ⟨by norm_num, hmap, ?_⟩
  rw [hmap]
  intro hpw
  exact (List.pairwise_cons.mp hpw).1 "frame_0_00.png" (by simp) rfl

/-! ### Orchestrator lemmas -/

theorem cancelFlag_true_iff (cancelAt : Option ℕ) (p : ℕ) :
    cancelFlag cancelAt p = true ↔ ∃ n, cancelAt = some n ∧ n ≤ p := by
  cases cancelAt with
  | none => simp [cancelFlag]
  | some n => simp [cancelFlag]

/-- The frame loop of `processInterval` skips the `saveAs` branch exactly when
one of its polls observed the cancellation flag. -/
theorem frameLoop_spec (duration Δ : ℚ) (format : String) (cancelAt : Option ℕ) :
    ∀ (fuel : ℕ) (t : ℚ) (p : ℕ) (r : FrameLoopOut),
      frameLoop duration Δ format cancelAt fuel t p = some r →
      (r.delivered = false ↔ ∃ n, cancelAt = some n ∧ n < p + r.polls) := by
  intro fuel
  induction fuel with
  | zero =>
    intro t p r h
    simp [frameLoop] at h
  | succ fuel ih =>
    intro t p r h
    rw [frameLoop] at h
    by_cases hc : cancelFlag cancelAt p = true
    · rw [if_pos hc] at h
      obtain ⟨n, hn, hnp⟩ := (cancelFlag_true_iff cancelAt p).mp hc
      injection h with h
      subst h
      dsimp only
      exact ⟨fun _ => ⟨n, hn, by omega⟩, fun _ => rfl⟩
    · rw [if_neg hc] at h
      by_cases ht : t > duration
      · rw [if_pos ht] at h
        injection h with h
        subst h
        dsimp only
        constructor
        · intro hfalse
          cases hfalse
        · rintro ⟨n, hn, hlt⟩
          exact absurd ((cancelFlag_true_iff cancelAt p).mpr ⟨n, hn, by omega⟩) hc
      · rw [if_neg ht] at h
        cases hrec : frameLoop duration Δ format cancelAt fuel (t + Δ) (p + 1) with
        | none =>
          rw [hrec] at h
          cases h
        | some fr =>
          rw [hrec] at h
          injection h with h
          subst h
          dsimp only
          have harith : p + (fr.polls + 1) = (p + 1) + fr.polls := by omega
          rw [harith]
          exact ih (t + Δ) (p + 1) fr hrec

/-- C10: when the interval-mode frame loop of a loadable video terminates,
the item always resolves (it is marked Done, never Error), the object URL is
revoked, and the per-source archive is withheld from `saveAs` exactly when the
cancellation flag was observed at one of the loop's polls. -/
theorem cancel_midloop_done_discard :
    ∀ (name : String) (d : ℚ) (s : Settings) (cancelAt : Option ℕ) (pollStart fuel : ℕ)
      (r : ItemResult),
      processIntervalItem ⟨name, some d⟩ s cancelAt pollStart fuel = some r →
      (statusOfOutcome r.outcome = Status.done ∧ r.revoked = true ∧
        (r.delivered = none ↔ ∃ n, cancelAt = some n ∧ n < pollStart + r.polls)) := by
  intro name d s cancelAt pollStart fuel r h
  unfold processIntervalItem at h
  dsimp only at h
  cases hfl : frameLoop d s.interval s.format cancelAt fuel 0 pollStart with
  | none =>
    rw [hfl] at h
    cases h
  | some fr =>
    rw [hfl] at h
    injection h with h
    subst h
    dsimp only
    refine ⟨rfl, rfl, ?_⟩
    have hspec := frameLoop_spec d s.interval s.format cancelAt fuel 0 pollStart fr hfl
    cases hd : fr.delivered with
    | false =>
      simp only [hd, if_neg Bool.false_ne_true]
      rw [hd] at hspec
      simpa using hspec
    | true =>
      simp only [hd, if_pos rfl]
      rw [hd] at hspec
      constructor
      · intro hnone
        cases hnone
      · intro hex
        exact absurd (hspec.mpr hex) (by simp)

/-- Witness for C10: one 1-second video, cancellation landing before the very
first frame poll: the item resolves as Done, the URL is revoked, nothing is
delivered. -/
theorem cancel_midloop_done_discard_witness :
    (processIntervalItem ⟨"v.mp4", some 1⟩
        { mode := Mode.interval, interval := 1, format := "image/png" } (some 0) 0 5 =
      some { outcome := ItemOutcome.done, masterAdd := [], delivered := none,
             revoked := true, polls := 1, captured := [] }) ∧
    statusOfOutcome ItemOutcome.done = Status.done ∧
    (some 0 : Option ℕ) = some 0 ∧ 0 < 0 + 1 := by
  have h : processIntervalItem ⟨"v.mp4", some 1⟩
      { mode := Mode.interval, interval := 1, format := "image/png" } (some 0) 0 5 =
      some { outcome := ItemOutcome.done, masterAdd := [], delivered := none,
             revoked := true, polls := 1, captured := [] } := by
    decide
  refine ⟨h, ?_, rfl, by omega⟩
  exact (cancel_midloop_done_discard "v.mp4" 1
    { mode := Mode.interval, interval := 1, format := "image/png" } (some 0) 0 5 _ h).1

/-- Every processed item's final badge is `finalStatus`, and an item
contributes at most its own indexed entry name to the shared zip. -/
theorem processItem_spec (f : VFile) (s : Settings) (i : ℕ) (cancelAt : Option ℕ)
    (p fuel : ℕ) (r0 : ItemResult) (h : processItem f s i cancelAt p fuel = some r0) :
    statusOfOutcome r0.outcome = finalStatus s f ∧
      (r0.masterAdd = [] ∨ r0.masterAdd = [singleFrameEntryName f.name i s.format]) := by
  unfold processItem at h
  cases hsm : s.mode with
  | single =>
    rw [hsm] at h
    dsimp only at h
    injection h with h
    subst h
    cases hfm : f.meta with
    | none => simp [processSingleItem, finalStatus, statusOfOutcome, hfm, hsm]
    | some d => simp [processSingleItem, finalStatus, statusOfOutcome, hfm, hsm]
  | interval =>
    rw [hsm] at h
    dsimp only at h
    unfold processIntervalItem at h
    cases hfm : f.meta with
    | none =>
      rw [hfm] at h
      dsimp only at h
      injection h with h
      subst h
      simp [finalStatus, statusOfOutcome, hfm, hsm]
    | some d =>
      rw [hfm] at h
      dsimp only at h
      cases hfl : frameLoop d s.interval s.format cancelAt fuel 0 p with
      | none =>
        rw [hfl] at h
        cases h
      | some fr =>
        rw [hfl] at h
        dsimp only at h
        injection h with h
        subst h
        simp [finalStatus, statusOfOutcome, hfm]

/-- Main-loop invariant: items beyond the last started one keep their
`Pending` badge, the loop itself never delivers the shared archive, and the
status list never changes length. -/
theorem runLoop_invariant (s : Settings) (cancelAt : Option ℕ) (fuel : ℕ) :
    ∀ (fs : List VFile) (i : ℕ) (acc r : RunResult),
      runLoop s cancelAt fuel fs i acc = some r →
      acc.started = i →
      (∀ j, i ≤ j → j < acc.statuses.length → acc.statuses[j]? = some Status.pending) →
      acc.sharedDelivered = none →
      ((∀ j, r.started ≤ j → j < r.statuses.length → r.statuses[j]? = some Status.pending) ∧
        r.sharedDelivered = none ∧ r.statuses.length = acc.statuses.length) := by
  intro fs
  induction fs with
  | nil =>
    intro i acc r h hstart hpend hsh
    rw [runLoop] at h
    injection h with h
    subst h
    exact ⟨fun j hj hjl => hpend j (by omega) hjl, hsh, rfl⟩
  | cons f rest ih =>
    intro i acc r h hstart hpend hsh
    rw [runLoop] at h
    by_cases hc : cancelFlag cancelAt acc.polls = true
    · rw [if_pos hc] at h
      injection h with h
      subst h
      exact ⟨fun j hj hjl => hpend j (by dsimp only at hj; omega) (by simpa using hjl), hsh, rfl⟩
    · rw [if_neg hc] at h
      cases hpi : processItem f s i cancelAt (acc.polls + 1) fuel with
      | none =>
        rw [hpi] at h
        cases h
      | some r0 =>
        rw [hpi] at h
        have h1 : acc.started + 1 = i + 1 := by omega
        have hp : ∀ j, i + 1 ≤ j →
            j < (acc.statuses.set i (statusOfOutcome r0.outcome)).length →
            (acc.statuses.set i (statusOfOutcome r0.outcome))[j]? = some Status.pending := by
          intro j hj hjl
          rw [List.getElem?_set_ne (by omega : i ≠ j)]
          exact hpend j (by omega) (by simpa using hjl)
        have hrec := ih (i + 1) _ r h h1 hp hsh
        refine ⟨hrec.1, hrec.2.1, ?_⟩
        rw [hrec.2.2]
        simp

/-- C6: if the stop flag is set at any point observed during the run, every
item whose processing never started keeps its `Pending` badge, and in
single-frame mode the master zip is never handed to `saveAs`. -/
theorem cancel_leaves_pending_and_no_delivery :
    ∀ (files : List VFile) (s : Settings) (n fuel : ℕ) (r : RunResult),
      startProcessing files s (some n) fuel = some r →
      ((∀ j, r.started ≤ j → j < r.statuses.length → r.statuses[j]? = some Status.pending) ∧
        (s.mode = Mode.single → n < r.polls → r.sharedDelivered = none)) := by
  intro files s n fuel r h
  unfold startProcessing at h
  cases hrl : runLoop s (some n) fuel files 0 (initRun files) with
  | none =>
    rw [hrl] at h
    cases h
  | some r0 =>
    rw [hrl] at h
    have hinit : ∀ j, 0 ≤ j → j < (initRun files).statuses.length →
        (initRun files).statuses[j]? = some Status.pending := by
      intro j _ hjl
      unfold initRun at hjl ⊢
      simp only [List.length_replicate] at hjl
      rw [List.getElem?_eq_getElem (by simpa using hjl)]
      simp [List.getElem_replicate]
    have hinv := runLoop_invariant s (some n) fuel files 0 (initRun files) r0 hrl rfl hinit rfl
    dsimp only at h
    cases hsm : s.mode with
    | interval =>
      rw [hsm] at h
      dsimp only at h
      injection h with h
      subst h
      exact ⟨hinv.1, fun hmm => Mode.noConfusion hmm⟩
    | single =>
      rw [hsm] at h
      dsimp only at h
      by_cases hc : cancelFlag (some n) r0.polls = true
      · rw [if_pos hc] at h
        injection h with h
        subst h
        exact ⟨hinv.1, fun _ _ => hinv.2.1⟩
      · rw [if_neg hc] at h
        by_cases hlen : files.length > 0
        · rw [if_pos hlen] at h
          injection h with h
          subst h
          refine ⟨hinv.1, fun _ hn => absurd ?_ hc⟩
          dsimp only at hn
          simp only [cancelFlag, decide_eq_true_eq]
          omega
        · rw [if_neg hlen] at h
          injection h with h
          subst h
          exact ⟨hinv.1, fun _ _ => hinv.2.1⟩

/-- Witness for C6: after cancelling the two-file batch at the second
loop-head poll, item 1 is still Pending and no master zip is delivered. -/
theorem cancel_leaves_pending_and_no_delivery_witness :
    (startProcessing cancelScenarioFiles cancelScenarioSettings (some 1) 0 =
      some cancelScenarioRun) ∧
    cancelScenarioRun.statuses[1]? = some Status.pending ∧
    (1 < cancelScenarioRun.polls) ∧
    cancelScenarioRun.sharedDelivered = none := by
  have hrun : startProcessing cancelScenarioFiles cancelScenarioSettings (some 1) 0 =
      some cancelScenarioRun := by decide
  have h := cancel_leaves_pending_and_no_delivery cancelScenarioFiles cancelScenarioSettings
    1 0 cancelScenarioRun hrun
  exact ⟨hrun, h.1 1 (by decide) (by decide), by decide, h.2 rfl (by decide)⟩

/-- Main-loop lemma for uncancelled runs: every queued item is processed and
receives its `finalStatus` badge; earlier badges are untouched. -/
theorem runLoop_no_cancel (s : Settings) (fuel : ℕ) :
    ∀ (fs : List VFile) (i : ℕ) (acc r : RunResult),
      runLoop s none fuel fs i acc = some r →
      i + fs.length ≤ acc.statuses.length →
      ((∀ k f, fs[k]? = some f → r.statuses[i + k]? = some (finalStatus s f)) ∧
        (∀ j, j < i → r.statuses[j]? = acc.statuses[j]?) ∧
        r.statuses.length = acc.statuses.length) := by
  intro fs
  induction fs with
  | nil =>
    intro i acc r h hlen
    rw [runLoop] at h
    injection h with h
    subst h
    exact ⟨fun k f hk => by simp at hk, fun j _ => rfl, rfl⟩
  | cons f rest ih =>
    intro i acc r h hlen
    rw [runLoop] at h
    rw [if_neg (by simp [cancelFlag])] at h
    cases hpi : processItem f s i none (acc.polls + 1) fuel with
    | none =>
      rw [hpi] at h
      cases h
    | some r0 =>
      rw [hpi] at h
      have hilt : i < acc.statuses.length := by
        simp only [List.length_cons] at hlen
        omega
      have hlen' : (i + 1) + rest.length ≤
          (acc.statuses.set i (statusOfOutcome r0.outcome)).length := by
        simp only [List.length_set, List.length_cons] at hlen ⊢
        omega
      have hrec := ih (i + 1) _ r h hlen'
      have hstat := (processItem_spec f s i none (acc.polls + 1) fuel r0 hpi).1
      refine ⟨?_, ?_, ?_⟩
      · intro k g hk
        cases k with
        | zero =>
          rw [List.getElem?_cons_zero] at hk
          injection hk with hk
          rw [Nat.add_zero]
          have hpres := hrec.2.1 i (by omega)
          rw [hpres]
          show (acc.statuses.set i (statusOfOutcome r0.outcome))[i]? = some (finalStatus s g)
          rw [List.getElem?_set_eq_of_lt _ hilt]
          simp [hstat, hk]
        | succ k =>
          rw [List.getElem?_cons_succ] at hk
          have hone := hrec.1 k g hk
          rw [show i + (k + 1) = (i + 1) + k by omega]
          exact hone
      · intro j hj
        rw [hrec.2.1 j (by omega)]
        show (acc.statuses.set i (statusOfOutcome r0.outcome))[j]? = acc.statuses[j]?
        rw [List.getElem?_set_ne (by omega : i ≠ j)]
      · rw [hrec.2.2]
        simp

/-- C7: in an uncancelled run every queue item ends at its own final badge:
`Error` with the captured load-failure message when its metadata cannot be
resolved, `Done` otherwise — one item's failure never stops the batch. -/
theorem error_isolation :
    ∀ (files : List VFile) (s : Settings) (fuel : ℕ) (r : RunResult),
      startProcessing files s none fuel = some r →
      ∀ (k : ℕ) (f : VFile), files[k]? = some f →
        r.statuses[k]? = some (finalStatus s f) := by
  intro files s fuel r h k f hk
  unfold startProcessing at h
  cases hrl : runLoop s none fuel files 0 (initRun files) with
  | none =>
    rw [hrl] at h
    cases h
  | some r0 =>
    rw [hrl] at h
    dsimp only at h
    have hlen0 : 0 + files.length ≤ (initRun files).statuses.length := by
      simp [initRun]
    have hrec := runLoop_no_cancel s fuel files 0 (initRun files) r0 hrl hlen0
    have hk0 := hrec.1 k f hk
    rw [Nat.zero_add] at hk0
    cases hsm : s.mode with
    | interval =>
      rw [hsm] at h
      dsimp only at h
      injection h with h
      subst h
      exact hk0
    | single =>
      rw [hsm] at h
      dsimp only at h
      by_cases hc : cancelFlag none r0.polls = true
      · rw [if_pos hc] at h
        injection h with h
        subst h
        exact hk0
      · rw [if_neg hc] at h
        by_cases hlen : files.length > 0
        · rw [if_pos hlen] at h
          injection h with h
          subst h
          exact hk0
        · rw [if_neg hlen] at h
          injection h with h
          subst h
          exact hk0

/-- Witness for C7: the failing first file is marked Error with the captured
message while the second still reaches Done. -/
theorem error_isolation_witness :
    (startProcessing errorScenarioFiles cancelScenarioSettings none 0 =
      some errorScenarioRun) ∧
    errorScenarioRun.statuses[0]? =
      some (finalStatus cancelScenarioSettings ⟨"bad", none⟩) ∧
    errorScenarioRun.statuses[1]? =
      some (finalStatus cancelScenarioSettings ⟨"good.mp4", some 1⟩) ∧
    finalStatus cancelScenarioSettings ⟨"bad", none⟩ =
      Status.error "Could not load video data" ∧
    finalStatus cancelScenarioSettings ⟨"good.mp4", some 1⟩ = Status.done := by
  have hrun : startProcessing errorScenarioFiles cancelScenarioSettings none 0 =
      some errorScenarioRun := by decide
  refine ⟨hrun, ?_, ?_, by decide, by decide⟩
  · exact error_isolation errorScenarioFiles cancelScenarioSettings 0 errorScenarioRun hrun
      0 ⟨"bad", none⟩ (by decide)
  · exact error_isolation errorScenarioFiles cancelScenarioSettings 0 errorScenarioRun hrun
      1 ⟨"good.mp4", some 1⟩ (by decide)

/-- Main-loop lemma: the shared zip's accumulated entry names stay pairwise
distinct, because each processed item contributes at most one name embedding
its own queue index. -/
theorem runLoop_master (s : Settings) (cancelAt : Option ℕ) (fuel : ℕ) :
    ∀ (fs : List VFile) (i : ℕ) (acc r : RunResult),
      runLoop s cancelAt fuel fs i acc = some r →
      acc.masterEntries.Pairwise (· ≠ ·) →
      (∀ e ∈ acc.masterEntries, entryIndex e < i) →
      r.masterEntries.Pairwise (· ≠ ·) := by
  intro fs
  induction fs with
  | nil =>
    intro i acc r h hpw hbd
    rw [runLoop] at h
    injection h with h
    subst h
    exact hpw
  | cons f rest ih =>
    intro i acc r h hpw hbd
    rw [runLoop] at h
    by_cases hc : cancelFlag cancelAt acc.polls = true
    · rw [if_pos hc] at h
      injection h with h
      subst h
      exact hpw
    · rw [if_neg hc] at h
      cases hpi : processItem f s i cancelAt (acc.polls + 1) fuel with
      | none =>
        rw [hpi] at h
        cases h
      | some r0 =>
        rw [hpi] at h
        have hadd := (processItem_spec f s i cancelAt (acc.polls + 1) fuel r0 hpi).2
        refine ih (i + 1) _ r h ?_ ?_
        · show (acc.masterEntries ++ r0.masterAdd).Pairwise (· ≠ ·)
          rcases hadd with hadd | hadd
          · rw [hadd, List.append_nil]
            exact hpw
          · rw [hadd]
            rw [List.pairwise_append]
            refine ⟨hpw, List.pairwise_singleton _ _, ?_⟩
            intro a ha b hb
            rcases List.mem_singleton.mp hb with rfl
            intro heq
            have hlt := hbd a ha
            rw [heq, entryIndex_singleFrameEntryName] at hlt
            omega
        · show ∀ e ∈ acc.masterEntries ++ r0.masterAdd, entryIndex e < i + 1
          intro e he
          rcases List.mem_append.mp he with he | he
          · exact lt_trans (hbd e he) (by omega)
          · rcases hadd with hadd | hadd
            · rw [hadd] at he
              cases he
            · rw [hadd] at he
              rcases List.mem_singleton.mp he with rfl
              rw [entryIndex_singleFrameEntryName]
              omega

/-- C4: single-frame-mode entry names embed the queue index, so the shared
zip's entry names are pairwise distinct for every batch — even one in which
all files share a base name; three files named "clip" with JPEG produce
exactly `clip_0.jpg`, `clip_1.jpg`, `clip_2.jpg`. -/
theorem sharedArchive_names_unique :
    (∀ (name : String) (d : ℚ) (s : Settings) (i : ℕ),
      (processSingleItem ⟨name, some d⟩ s i).masterAdd =
        [singleFrameEntryName name i s.format]) ∧
    (∀ (files : List VFile) (s : Settings) (cancelAt : Option ℕ) (fuel : ℕ) (r : RunResult),
      s.mode = Mode.single → startProcessing files s cancelAt fuel = some r →
        r.masterEntries.Pairwise (· ≠ ·)) ∧
    startProcessing clipFiles clipSettings none 0 = some clipRun ∧
    clipRun.sharedDelivered = some ["clip_0.jpg", "clip_1.jpg", "clip_2.jpg"] := by
  refine ⟨fun name d s i => rfl, ?_, by decide, by decide⟩
  intro files s cancelAt fuel r _ h
  unfold startProcessing at h
  cases hrl : runLoop s cancelAt fuel files 0 (initRun files) with
  | none =>
    rw [hrl] at h
    cases h
  | some r0 =>
    rw [hrl] at h
    dsimp only at h
    have hpw0 := runLoop_master s cancelAt fuel files 0 (initRun files) r0 hrl
      List.Pairwise.nil (by intro e he; cases he)
    cases hsm : s.mode with
    | interval =>
      rw [hsm] at h
      dsimp only at h
      injection h with h
      subst h
      exact hpw0
    | single =>
      rw [hsm] at h
      dsimp only at h
      by_cases hc : cancelFlag cancelAt r0.polls = true
      · rw [if_pos hc] at h
        injection h with h
        subst h
        exact hpw0
      · rw [if_neg hc] at h
        by_cases hlen : files.length > 0
        · rw [if_pos hlen] at h
          injection h with h
          subst h
          exact hpw0
        · rw [if_neg hlen] at h
          injection h with h
          subst h
          exact hpw0

/-- Witness for C4: the "clip" batch run satisfies the mode hypothesis and
its shared-zip entry names are pairwise distinct. -/
theorem sharedArchive_names_unique_witness :
    clipSettings.mode = Mode.single ∧
    (processSingleItem ⟨"clip", some 10⟩ clipSettings 0).masterAdd =
      [singleFrameEntryName "clip" 0 clipSettings.format] ∧
    clipRun.masterEntries.Pairwise (· ≠ ·) :=
  ⟨rfl, sharedArchive_names_unique.1 "clip" 10 clipSettings 0,
    sharedArchive_names_unique.2.1 clipFiles clipSettings none 0 clipRun rfl
      sharedArchive_names_unique.2.2.1⟩

/-- C9 fails on the interval-mode load-error path: `video.onerror` in
`processInterval` (line 316) rejects without calling
`URL.revokeObjectURL`, while the same failure in `processSingleFrame`
(lines 250-253) does revoke. -/
theorem interval_error_leaks_objectURL :
    (processIntervalItem ⟨"v.mp4", none⟩
        { mode := Mode.interval, interval := 1, format := "image/png" } none 0 1 =
      some { outcome := ItemOutcome.error "Video playback error", masterAdd := [],
             delivered := none, revoked := false, polls := 0, captured := [] }) ∧
    (processSingleItem ⟨"v.mp4", none⟩
        { mode := Mode.single, interval := 1, format := "image/png" } 0).revoked = true := by
  exact ⟨by decide, by decide⟩

/-- C8 fails: the entry of `startProcessing` performs no `isProcessing`
check, so invoking it while a run is active mutates the session — it clears a
pending stop request (and switches the UI into a second run). -/
theorem startProcessing_no_guard_bug :
    startProcessingEntry { isProcessing := true, stopRequested := true } =
      { isProcessing := true, stopRequested := false } ∧
    startProcessingEntry { isProcessing := true, stopRequested := true } ≠
      { isProcessing := true, stopRequested := true } := by
  exact ⟨rfl, by decide⟩

end VTI
